import Mathlib

/-!
Verification of the `scran::average_vectors` averaging kernel
(`include/scran/average_vectors.hpp`).

Floating-point values are modelled exactly: an extended value (`EF`) is
NaN, a signed infinity, or a finite rational.  Arithmetic follows IEEE
semantics on these constructors (NaN absorbs, opposite infinities cancel
to NaN, division of a nonzero finite value by zero yields a signed
infinity, 0/0 yields NaN); finite arithmetic is exact — rounding of the
underlying machine format is not modelled.  Weights are finite rationals,
matching the documented precondition that weights are finite.

Raw pointers become lists: each input array is a `List EF` of length at
least `n`, the weight pointer a `List ℚ`, and the caller-supplied output
buffer a `List EF` (its prior contents are dead, since the engine fully
overwrites it, which the translation makes explicit by never reading it).
-/

namespace scran
namespace average_vectors

/-- Extended floating-point value: NaN, a signed infinity (`true` = positive),
or an exact finite rational. -/
inductive EF where
  | nan : EF
  | inf : Bool → EF
  | val : ℚ → EF
deriving DecidableEq, Inhabited

/-- IEEE addition on extended values. -/
def EF.add : EF → EF → EF
  | .nan, _ => .nan
  | _, .nan => .nan
  | .inf s, .inf t => if s = t then .inf s else .nan
  | .inf s, .val _ => .inf s
  | .val _, .inf t => .inf t
  | .val a, .val b => .val (a + b)

/-- IEEE multiplication of an extended value by a finite scalar. -/
def EF.mulQ : EF → ℚ → EF
  | .nan, _ => .nan
  | .inf s, q => if q = 0 then .nan else if 0 < q then .inf s else .inf (!s)
  | .val a, q => .val (a * q)

/-- IEEE multiplication on extended values. -/
def EF.mul : EF → EF → EF
  | .nan, _ => .nan
  | _, .nan => .nan
  | .inf s, .inf t => .inf (s == t)
  | .inf s, .val q => if q = 0 then .nan else if 0 < q then .inf s else .inf (!s)
  | .val q, .inf t => if q = 0 then .nan else if 0 < q then .inf t else .inf (!t)
  | .val a, .val b => .val (a * b)

/-- IEEE division of an extended value by a finite scalar (a zero divisor is +0,
so `0/0 = NaN` and `a/0 = ±∞` for nonzero finite `a`). -/
def EF.divQ : EF → ℚ → EF
  | .nan, _ => .nan
  | .inf s, q => if 0 ≤ q then .inf s else .inf (!s)
  | .val a, q =>
      if q = 0 then
        if a = 0 then .nan else if 0 < a then .inf true else .inf false
      else .val (a / q)

/-- Scale one element by its array's weight; the `weight != 1` fast path of the
source skips the multiplication when the weight is 1, and the unweighted
instantiation never scales. -/
def scaleVal (weighted : Bool) (w : ℚ) (x : EF) : EF :=
  if weighted = true ∧ w ≠ 1 then EF.mulQ x w else x

/-- Mass added to the per-position accumulated counter by one non-NaN element:
the array's weight on the weighted path (`accumulated[i] += weight`),
1 on the unweighted path (`++accumulated[i]`). -/
def massOf (weighted : Bool) (w : ℚ) : ℚ :=
  if weighted = true then w else 1

/-- One element's effect on the running (sum, accumulated-mass) pair: with
NaN-skipping a NaN contributes nothing, a non-NaN element is added and its
mass counted; without NaN-skipping the element is added unconditionally. -/
def contribute (skip : Bool) (x : EF) (m : ℚ) (p : EF × ℚ) : EF × ℚ :=
  if skip = true then
    if x = EF.nan then p else (p.1.add x, p.2 + m)
  else (p.1.add x, p.2)

/-- One input array's pass over the output buffer: the body of the main loop of
`internal::compute`, including the `weight == 0` `continue`. -/
def accumArray (n : ℕ) (weighted skip : Bool) (arr : List EF) (w : ℚ)
    (st : List (EF × ℚ)) : List (EF × ℚ) :=
  if weighted = true ∧ w = 0 then st
  else List.zipWith (fun x p => contribute skip (scaleVal weighted w x) (massOf weighted w) p)
    (arr.take n) st

/-- Effective per-array weights: the supplied weights on the weighted path,
an implicit weight of 1 per array on the unweighted path. -/
def effWeights (weighted : Bool) (inp : List (List EF)) (w : List ℚ) : List ℚ :=
  if weighted = true then w else List.replicate inp.length 1

/-- The full accumulation loop of `internal::compute` over all input arrays,
starting from the zero-filled output buffer and zero accumulated masses. -/
def accumAll (weighted skip : Bool) (n : ℕ) (inp : List (List EF)) (w : List ℚ) :
    List (EF × ℚ) :=
  (inp.zip (effWeights weighted inp w)).foldl
    (fun st p => accumArray n weighted skip p.1 p.2 st)
    (List.replicate n (EF.val 0, (0 : ℚ)))

namespace internal

/-- `internal::compute`: the shared engine.  Empty collection: NaN fill.
Single array: NaN fill when its weight is zero (weighted only), otherwise a
direct copy of the first `n` elements.  Otherwise: accumulate, then divide
each position by its own accumulated mass (NaN-skipping mode) or multiply
every position by the single reciprocal of the global divisor. -/
def compute (weighted : Bool) (n : ℕ) (inp : List (List EF)) (w : List ℚ)
    (out0 : List EF) (skip_nan : Bool) : List EF :=
  match inp with
  | [] => List.replicate n EF.nan
  | [a] =>
      if weighted = true ∧ w.headD 1 = 0 then List.replicate n EF.nan
      else a.take n
  | _ =>
      let st := accumAll weighted skip_nan n inp w
      if skip_nan = true then st.map (fun p => EF.divQ p.1 p.2)
      else
        let denom := EF.divQ (EF.val 1)
          (if weighted = true then (w.take inp.length).sum else (inp.length : ℚ))
        st.map (fun p => EF.mul p.1 denom)

end internal

/-- Unweighted `compute` (pointer overload): dispatches to the engine with the
weighted flag off (the weight pointer is never read). -/
def compute (n : ℕ) (inp : List (List EF)) (out0 : List EF) (skip_nan : Bool) : List EF :=
  internal.compute false n inp [] out0 skip_nan

/-- Unweighted `compute` (allocating overload): runs the pointer overload on a
freshly value-initialized buffer of length `n`. -/
def compute_alloc (n : ℕ) (inp : List (List EF)) (skip_nan : Bool) : List EF :=
  compute n inp (List.replicate n (EF.val 0)) skip_nan

/-- `compute_weighted` (pointer overload): on a nonempty collection whose
weights are all equal, either NaN-fills (shared weight zero) or dispatches to
the unweighted path; otherwise runs the engine with the weighted flag on. -/
def compute_weighted (n : ℕ) (inp : List (List EF)) (w : List ℚ) (out0 : List EF)
    (skip_nan : Bool) : List EF :=
  if inp ≠ [] ∧ (w.take inp.length).all (fun x => x == w.headD 0) then
    if w.headD 0 = 0 then List.replicate n EF.nan
    else compute n inp out0 skip_nan
  else internal.compute true n inp w out0 skip_nan

/-- `compute_weighted` (allocating overload). -/
def compute_weighted_alloc (n : ℕ) (inp : List (List EF)) (w : List ℚ)
    (skip_nan : Bool) : List EF :=
  compute_weighted n inp w (List.replicate n (EF.val 0)) skip_nan

/-- The list of per-position contributions surviving accumulation at position
`i`, read off a zipped (array, weight) list: contributions of zero-weight
arrays are dropped on the weighted path, and in NaN-skipping mode so are
scaled elements equal to NaN; each survivor carries its scaled value and its
mass. -/
def columnContribs (weighted skip : Bool) (i : ℕ) (l : List (List EF × ℚ)) :
    List (EF × ℚ) :=
  l.filterMap (fun p : List EF × ℚ =>
    if weighted = true ∧ p.2 = 0 then none
    else if skip = true ∧ scaleVal weighted p.2 (p.1[i]!) = EF.nan then none
    else some (scaleVal weighted p.2 (p.1[i]!), massOf weighted p.2))

theorem EF.val_ne_nan (a : ℚ) : EF.val a ≠ EF.nan := fun h => EF.noConfusion h

theorem EF.inf_ne_nan (s : Bool) : EF.inf s ≠ EF.nan := fun h => EF.noConfusion h

theorem EF.nan_ne_val (a : ℚ) : EF.nan ≠ EF.val a := fun h => EF.noConfusion h

theorem EF.nan_add (x : EF) : EF.add EF.nan x = EF.nan := by
  cases x <;> rfl

theorem EF.add_nan (x : EF) : EF.add x EF.nan = EF.nan := by
  cases x <;> rfl

theorem EF.zero_add (x : EF) : (EF.val 0).add x = x := by
  cases x <;> simp [EF.add]

theorem EF.add_zero (x : EF) : x.add (EF.val 0) = x := by
  cases x <;> simp [EF.add]

theorem EF.add_assoc (x y z : EF) : (x.add y).add z = x.add (y.add z) := by
  cases x <;> cases y <;> cases z <;>
    simp only [EF.add, EF.nan_add, EF.add_nan] <;>
    (try split_ifs) <;>
    simp_all [EF.add] <;>
    (try ring)

theorem EF.nan_mul (y : EF) : EF.mul EF.nan y = EF.nan := by
  cases y <;> rfl

theorem foldl_add_nan (l : List EF) : l.foldl EF.add EF.nan = EF.nan := by
  induction l with
  | nil => rfl
  | cons x l ih => simpa [List.foldl_cons, EF.nan_add] using ih

theorem foldl_add_of_mem_nan {l : List EF} (h : EF.nan ∈ l) (a : EF) :
    l.foldl EF.add a = EF.nan := by
  induction l generalizing a with
  | nil => simp at h
  | cons x l ih =>
      rcases List.mem_cons.mp h with h | h
      · rw [← h]
        show l.foldl EF.add (a.add EF.nan) = EF.nan
        rw [EF.add_nan]
        exact foldl_add_nan l
      · exact ih h _

theorem foldl_add_init (l : List EF) (a : EF) :
    l.foldl EF.add a = a.add (l.foldl EF.add (EF.val 0)) := by
  induction l generalizing a with
  | nil => simp [EF.add_zero]
  | cons x l ih =>
      show l.foldl EF.add (a.add x) = a.add (l.foldl EF.add ((EF.val 0).add x))
      rw [EF.zero_add, ih (a.add x), ih x, EF.add_assoc]

theorem getBang_eq_getElem {α : Type} [Inhabited α] {l : List α} {i : ℕ}
    (h : i < l.length) : l[i]! = l[i] := getElem!_pos l i h

theorem contribute_not_nan {skip : Bool} {x : EF} {m : ℚ} {q : EF × ℚ}
    (h : ¬(skip = true ∧ x = EF.nan)) :
    contribute skip x m q = (q.1.add x, q.2 + if skip = true then m else 0) := by
  cases skip with
  | false => simp [contribute]
  | true =>
      have hx : x ≠ EF.nan := fun hx => h ⟨rfl, hx⟩
      simp [contribute, hx]

theorem accumArray_length {n : ℕ} {b skip : Bool} {arr : List EF} {w : ℚ}
    {st : List (EF × ℚ)} (hst : st.length = n) (harr : n ≤ arr.length) :
    (accumArray n b skip arr w st).length = n := by
  unfold accumArray
  split
  · exact hst
  · simp only [List.length_zipWith, List.length_take, hst]
    omega

theorem accumArray_getElem {n : ℕ} {b skip : Bool} {arr : List EF} {w : ℚ}
    {st : List (EF × ℚ)} {i : ℕ} (hst : st.length = n) (harr : n ≤ arr.length)
    (hi : i < n) :
    (accumArray n b skip arr w st)[i]! =
      if b = true ∧ w = 0 then st[i]!
      else contribute skip (scaleVal b w (arr[i]!)) (massOf b w) (st[i]!) := by
  have h1 : i < st.length := by omega
  have h2 : i < arr.length := by omega
  unfold accumArray
  split_ifs
  · rfl
  · have hb : i < (List.zipWith
        (fun x p => contribute skip (scaleVal b w x) (massOf b w) p)
        (arr.take n) st).length := by
      simp only [List.length_zipWith, List.length_take]
      omega
    rw [getBang_eq_getElem hb, getBang_eq_getElem h1, getBang_eq_getElem h2,
      List.getElem_zipWith, List.getElem_take]

theorem foldl_accumArray_length {n : ℕ} {b skip : Bool} (l : List (List EF × ℚ)) :
    ∀ st : List (EF × ℚ), st.length = n → (∀ p ∈ l, n ≤ p.1.length) →
      (l.foldl (fun st p => accumArray n b skip p.1 p.2 st) st).length = n := by
  induction l with
  | nil => intro st hst _; exact hst
  | cons p l ih =>
      intro st hst hl
      rw [List.foldl_cons]
      exact ih _ (accumArray_length hst (hl p (List.mem_cons_self p l)))
        (fun q hq => hl q (List.mem_cons_of_mem p hq))

theorem foldl_accumArray_getElem {n : ℕ} {b skip : Bool} {i : ℕ} (hi : i < n)
    (l : List (List EF × ℚ)) :
    ∀ st : List (EF × ℚ), st.length = n → (∀ p ∈ l, n ≤ p.1.length) →
      (l.foldl (fun st p => accumArray n b skip p.1 p.2 st) st)[i]! =
        l.foldl (fun (q : EF × ℚ) (p : List EF × ℚ) =>
          if b = true ∧ p.2 = 0 then q
          else contribute skip (scaleVal b p.2 (p.1[i]!)) (massOf b p.2) q) (st[i]!) := by
  induction l with
  | nil => intro st _ _; rfl
  | cons p l ih =>
      intro st hst hl
      have hp : n ≤ p.1.length := hl p (List.mem_cons_self p l)
      have hl2 : ∀ q ∈ l, n ≤ q.1.length := fun q hq => hl q (List.mem_cons_of_mem p hq)
      rw [List.foldl_cons, List.foldl_cons,
        ih _ (accumArray_length hst hp) hl2, accumArray_getElem hst hp hi]

theorem foldl_contribute_eq {b skip : Bool} {i : ℕ} (l : List (List EF × ℚ)) :
    ∀ q : EF × ℚ,
      l.foldl (fun (q : EF × ℚ) (p : List EF × ℚ) =>
          if b = true ∧ p.2 = 0 then q
          else contribute skip (scaleVal b p.2 (p.1[i]!)) (massOf b p.2) q) q =
        (q.1.add (((columnContribs b skip i l).map Prod.fst).foldl EF.add (EF.val 0)),
         q.2 + if skip = true then ((columnContribs b skip i l).map Prod.snd).sum else 0) := by
  induction l with
  | nil =>
      intro q
      simp [columnContribs, EF.add_zero]
  | cons p l ih =>
      intro q
      rw [List.foldl_cons]
      by_cases h0 : b = true ∧ p.2 = 0
      · rw [if_pos h0, ih q]
        have hcc : columnContribs b skip i (p :: l) = columnContribs b skip i l := by
          simp [columnContribs, h0]
        rw [hcc]
      · rw [if_neg h0]
        by_cases hnan : skip = true ∧ scaleVal b p.2 (p.1[i]!) = EF.nan
        · have hcq : contribute skip (scaleVal b p.2 (p.1[i]!)) (massOf b p.2) q = q := by
            simp [contribute, hnan.1, hnan.2]
          rw [hcq, ih q]
          have hcc : columnContribs b skip i (p :: l) = columnContribs b skip i l := by
            simp only [columnContribs, List.filterMap_cons, if_neg h0]
            rw [if_pos hnan]
          rw [hcc]
        · have hcc : columnContribs b skip i (p :: l) =
              (scaleVal b p.2 (p.1[i]!), massOf b p.2) :: columnContribs b skip i l := by
            simp only [columnContribs, List.filterMap_cons, if_neg h0]
            rw [if_neg hnan]
          rw [contribute_not_nan hnan, ih, hcc]
          refine Prod.ext ?_ ?_
          · show (q.1.add _).add _ = q.1.add _
            rw [EF.add_assoc]
            congr 1
            rw [List.map_cons, List.foldl_cons, EF.zero_add]
            exact (foldl_add_init _ _).symm
          · cases skip <;> simp <;> ring

theorem accumAll_length {b skip : Bool} {n : ℕ} {inp : List (List EF)} {w : List ℚ}
    (hlen : ∀ a ∈ inp, n ≤ a.length) :
    (accumAll b skip n inp w).length = n := by
  unfold accumAll
  refine foldl_accumArray_length _ _ (by simp) ?_
  rintro ⟨a, q⟩ hp
  exact hlen a (List.of_mem_zip hp).1

theorem accumAll_getElem {b skip : Bool} {n i : ℕ} {inp : List (List EF)} {w : List ℚ}
    (hi : i < n) (hlen : ∀ a ∈ inp, n ≤ a.length) :
    (accumAll b skip n inp w)[i]! =
      (((columnContribs b skip i (inp.zip (effWeights b inp w))).map Prod.fst).foldl
          EF.add (EF.val 0),
       if skip = true then
         ((columnContribs b skip i (inp.zip (effWeights b inp w))).map Prod.snd).sum
       else 0) := by
  unfold accumAll
  rw [foldl_accumArray_getElem hi _ _ (by simp)
      (by rintro ⟨a, q⟩ hp; exact hlen a (List.of_mem_zip hp).1),
    @getBang_eq_getElem (EF × ℚ) _ (List.replicate n (EF.val 0, (0 : ℚ))) i (by simp [hi]),
    List.getElem_replicate, foldl_contribute_eq]
  simp [EF.zero_add]

theorem scaleVal_nan (b : Bool) (w : ℚ) : scaleVal b w EF.nan = EF.nan := by
  unfold scaleVal
  split
  · rfl
  · rfl

theorem internal_compute_multi_skip {b : Bool} {n i : ℕ} {inp : List (List EF)}
    {w : List ℚ} {out0 : List EF} (h2 : 2 ≤ inp.length)
    (hlen : ∀ a ∈ inp, n ≤ a.length) (hi : i < n) :
    (internal.compute b n inp w out0 true)[i]! =
      EF.divQ
        (((columnContribs b true i (inp.zip (effWeights b inp w))).map Prod.fst).foldl
          EF.add (EF.val 0))
        (((columnContribs b true i (inp.zip (effWeights b inp w))).map Prod.snd).sum) := by
  rcases inp with _ | ⟨a1, _ | ⟨a2, t⟩⟩
  · simp at h2
  · simp at h2
  · have hred : internal.compute b n (a1 :: a2 :: t) w out0 true =
        (accumAll b true n (a1 :: a2 :: t) w).map (fun p => EF.divQ p.1 p.2) := rfl
    have hb : i < ((accumAll b true n (a1 :: a2 :: t) w).map
        (fun p => EF.divQ p.1 p.2)).length := by
      rw [List.length_map, accumAll_length hlen]
      exact hi
    have hb2 : i < (accumAll b true n (a1 :: a2 :: t) w).length := by
      rw [accumAll_length hlen]
      exact hi
    rw [hred, getBang_eq_getElem hb, List.getElem_map, ← getBang_eq_getElem hb2,
      accumAll_getElem hi hlen]
    simp

theorem internal_compute_multi_noskip {b : Bool} {n i : ℕ} {inp : List (List EF)}
    {w : List ℚ} {out0 : List EF} (h2 : 2 ≤ inp.length)
    (hlen : ∀ a ∈ inp, n ≤ a.length) (hi : i < n) :
    (internal.compute b n inp w out0 false)[i]! =
      EF.mul
        (((columnContribs b false i (inp.zip (effWeights b inp w))).map Prod.fst).foldl
          EF.add (EF.val 0))
        (EF.divQ (EF.val 1)
          (if b = true then (w.take inp.length).sum else (inp.length : ℚ))) := by
  rcases inp with _ | ⟨a1, _ | ⟨a2, t⟩⟩
  · simp at h2
  · simp at h2
  · have hred : internal.compute b n (a1 :: a2 :: t) w out0 false =
        (accumAll b false n (a1 :: a2 :: t) w).map (fun p => EF.mul p.1
          (EF.divQ (EF.val 1)
            (if b = true then (w.take (a1 :: a2 :: t).length).sum
             else ((a1 :: a2 :: t).length : ℚ)))) := rfl
    have hb : i < ((accumAll b false n (a1 :: a2 :: t) w).map (fun p => EF.mul p.1
        (EF.divQ (EF.val 1)
          (if b = true then (w.take (a1 :: a2 :: t).length).sum
           else ((a1 :: a2 :: t).length : ℚ))))).length := by
      rw [List.length_map, accumAll_length hlen]
      exact hi
    have hb2 : i < (accumAll b false n (a1 :: a2 :: t) w).length := by
      rw [accumAll_length hlen]
      exact hi
    rw [hred, getBang_eq_getElem hb, List.getElem_map, ← getBang_eq_getElem hb2,
      accumAll_getElem hi hlen]

/-- Claim C1: with NaN-skipping on and at least two input arrays (unweighted engine,
or the weighted general path), an element whose scaled value is NaN is excluded from
the running sum at its position and that position's accumulated-mass counter is not
incremented, while a non-NaN element is added and its mass (1 unweighted, its weight
weighted) is added to the counter; each output position is finally divided by its
own per-position counter.  In particular, unweighted compute on
[[1,NaN],[3,NaN],[5,4]] with skip_nan = true yields [3, 4]. -/
theorem claim1_nan_skipping :
    (∀ (b : Bool) (n : ℕ) (inp : List (List EF)) (w : List ℚ) (out0 : List EF) (i : ℕ),
        2 ≤ inp.length → (∀ a ∈ inp, n ≤ a.length) → i < n →
        (internal.compute b n inp w out0 true)[i]! =
          EF.divQ
            (((columnContribs b true i (inp.zip (effWeights b inp w))).map Prod.fst).foldl
              EF.add (EF.val 0))
            (((columnContribs b true i (inp.zip (effWeights b inp w))).map Prod.snd).sum)) ∧
    compute 2 [[EF.val 1, EF.nan], [EF.val 3, EF.nan], [EF.val 5, EF.val 4]]
      [EF.val 0, EF.val 0] true = [EF.val 3, EF.val 4] := by
  constructor
  · intro b n inp w out0 i h2 hlen hi
    exact internal_compute_multi_skip h2 hlen hi
  · norm_num [compute, internal.compute, accumAll, effWeights, accumArray, contribute,
      scaleVal, massOf, EF.add, EF.divQ, EF.mulQ, EF.mul, EF.val_ne_nan,
      List.replicate, List.zip, List.zipWith, List.foldl, List.take]

/-- Witness for C1: the general NaN-skipping characterization applied at the concrete
input n = 1, arrays [[2],[NaN]], unweighted. -/
theorem claim1_nan_skipping_witness :
    (internal.compute false 1 [[EF.val 2], [EF.nan]] [] [EF.val 0] true)[0]! =
      EF.divQ
        (((columnContribs false true 0 ([[EF.val 2], [EF.nan]].zip
            (effWeights false [[EF.val 2], [EF.nan]] []))).map Prod.fst).foldl
          EF.add (EF.val 0))
        (((columnContribs false true 0 ([[EF.val 2], [EF.nan]].zip
            (effWeights false [[EF.val 2], [EF.nan]] []))).map Prod.snd).sum) :=
  claim1_nan_skipping.1 false 1 [[EF.val 2], [EF.nan]] [] [EF.val 0] 0
    (by norm_num) (by simp) (by norm_num)

/-- Claim C2 counterexample: skip_nan = false, three input arrays, and the column at
position 0 contains a NaN (in the zero-weight first array), yet the output is the
non-NaN value 5/3: a NaN in *any* input array does not always propagate, because a
zero-weight array is skipped by the weight check before any element is read. -/
theorem claim2_counterexample :
    compute_weighted 1 [[EF.nan], [EF.val 1], [EF.val 2]] [0, 1, 2] [EF.val 0] false
        = [EF.val (5/3)] ∧ EF.val (5/3) ≠ EF.nan := by
  refine ⟨?_, EF.val_ne_nan _⟩
  norm_num [compute_weighted, compute, internal.compute, accumAll, effWeights, accumArray,
    contribute, scaleVal, massOf, EF.add, EF.divQ, EF.mulQ, EF.mul, EF.val_ne_nan,
    List.replicate, List.zip, List.zipWith, List.foldl, List.take]

/-- Claim C2 (amended): with skip_nan = false and at least two input arrays, every
element of every array that is not skipped for having zero weight is summed
unconditionally with no NaN inspection, so a NaN in any such non-excluded array at
position i propagates to a NaN result at output position i. -/
theorem claim2_nan_propagation :
    ∀ (b : Bool) (n : ℕ) (inp : List (List EF)) (w : List ℚ) (out0 : List EF) (i j : ℕ),
      2 ≤ inp.length → (∀ a ∈ inp, n ≤ a.length) → i < n →
      (effWeights b inp w).length = inp.length → j < inp.length →
      ¬(b = true ∧ (effWeights b inp w)[j]! = 0) →
      (inp[j]!)[i]! = EF.nan →
      (internal.compute b n inp w out0 false)[i]! = EF.nan := by
  intro b n inp w out0 i j h2 hlen hi hw hj hnz hnan
  rw [internal_compute_multi_noskip h2 hlen hi]
  have hji : j < inp.length := hj
  have hjw : j < (effWeights b inp w).length := by rw [hw]; exact hj
  have hjz : j < (inp.zip (effWeights b inp w)).length := by
    rw [List.length_zip, hw, min_self]
    exact hj
  have hmem0 : (inp.zip (effWeights b inp w))[j] ∈ inp.zip (effWeights b inp w) :=
    List.getElem_mem hjz
  rw [List.getElem_zip, ← getBang_eq_getElem hji, ← getBang_eq_getElem hjw] at hmem0
  have hmemc : (EF.nan, massOf b ((effWeights b inp w)[j]!)) ∈
      columnContribs b false i (inp.zip (effWeights b inp w)) := by
    refine List.mem_filterMap.mpr ⟨(inp[j]!, (effWeights b inp w)[j]!), hmem0, ?_⟩
    simp only [columnContribs]
    rw [if_neg hnz]
    simp [hnan, scaleVal_nan]
  have hmemf : EF.nan ∈
      (columnContribs b false i (inp.zip (effWeights b inp w))).map Prod.fst :=
    List.mem_map.mpr ⟨_, hmemc, rfl⟩
  rw [foldl_add_of_mem_nan hmemf, EF.nan_mul]

/-- Witness for C2 (amended): at n = 1, arrays [[NaN],[1]], unweighted engine, the
NaN in array 0 propagates to a NaN output with skip_nan = false. -/
theorem claim2_nan_propagation_witness :
    (internal.compute false 1 [[EF.nan], [EF.val 1]] [] [EF.val 0] false)[0]! = EF.nan :=
  claim2_nan_propagation false 1 [[EF.nan], [EF.val 1]] [] [EF.val 0] 0 0
    (by norm_num) (by simp) (by norm_num) (by simp [effWeights]) (by norm_num)
    (by simp) rfl

/-- Claim C6: with skip_nan = false and at least two input arrays, final
normalization uses a single global divisor — the number of arrays on the unweighted
path, the sum of all supplied weights on the weighted path — applied uniformly to
every output position as one multiplication by the reciprocal 1/divisor. -/
theorem claim6_single_global_divisor :
    ∀ (b : Bool) (n : ℕ) (inp : List (List EF)) (w : List ℚ) (out0 : List EF) (i : ℕ),
      2 ≤ inp.length → (∀ a ∈ inp, n ≤ a.length) → i < n →
      (internal.compute b n inp w out0 false)[i]! =
        EF.mul
          (((columnContribs b false i (inp.zip (effWeights b inp w))).map Prod.fst).foldl
            EF.add (EF.val 0))
          (EF.divQ (EF.val 1)
            (if b = true then (w.take inp.length).sum else (inp.length : ℚ))) := by
  intro b n inp w out0 i h2 hlen hi
  exact internal_compute_multi_noskip h2 hlen hi

/-- Witness for C6: the global-divisor form applied at n = 1, arrays [[1],[3]],
unweighted. -/
theorem claim6_single_global_divisor_witness :
    (internal.compute false 1 [[EF.val 1], [EF.val 3]] [] [EF.val 0] false)[0]! =
      EF.mul
        (((columnContribs false false 0 ([[EF.val 1], [EF.val 3]].zip
            (effWeights false [[EF.val 1], [EF.val 3]] []))).map Prod.fst).foldl
          EF.add (EF.val 0))
        (EF.divQ (EF.val 1)
          (if false = true then (List.take ([[EF.val 1], [EF.val 3]] : List (List EF)).length
              ([] : List ℚ)).sum
           else (([[EF.val 1], [EF.val 3]] : List (List EF)).length : ℚ))) :=
  claim6_single_global_divisor false 1 [[EF.val 1], [EF.val 3]] [] [EF.val 0] 0
    (by norm_num) (by simp) (by norm_num)

/-- Claim C3: on a nonempty collection whose weights are all equal,
compute_weighted dispatches to the unweighted compute when the shared weight is
nonzero, and fills the output with NaN when the shared weight is zero (in
particular when every weight is zero). -/
theorem claim3_equal_weights_dispatch :
    ∀ (n : ℕ) (inp : List (List EF)) (w : List ℚ) (out0 : List EF) (skip_nan : Bool)
      (c : ℚ),
      inp ≠ [] → w.length = inp.length → (∀ x ∈ w, x = c) →
      compute_weighted n inp w out0 skip_nan =
        if c = 0 then List.replicate n EF.nan else compute n inp out0 skip_nan := by
  intro n inp w out0 sk c hne hlen hsame
  have hwne : w ≠ [] := by
    intro h
    apply hne
    rw [h] at hlen
    exact List.length_eq_zero.mp hlen.symm
  have hhead : w.headD 0 = c := by
    rcases w with _ | ⟨w0, wt⟩
    · exact absurd rfl hwne
    · exact hsame w0 (List.mem_cons_self _ _)
  have hall : ((w.take inp.length).all (fun x => x == w.headD 0)) = true := by
    rw [List.all_eq_true]
    intro x hx
    rw [hhead, beq_iff_eq]
    exact hsame x (List.take_subset _ _ hx)
  unfold compute_weighted
  rw [if_pos ⟨hne, hall⟩, hhead]

/-- Witness for C3 at weights [2,2] over two arrays: the weighted call equals the
dispatch result (here the unweighted path, since the shared weight 2 is nonzero). -/
theorem claim3_equal_weights_dispatch_witness :
    compute_weighted 1 [[EF.val 7], [EF.val 8]] [2, 2] [EF.val 0] false =
      (if (2 : ℚ) = 0 then List.replicate 1 EF.nan
       else compute 1 [[EF.val 7], [EF.val 8]] [EF.val 0] false) :=
  claim3_equal_weights_dispatch 1 [[EF.val 7], [EF.val 8]] [2, 2] [EF.val 0] false 2
    (by simp) (by simp) (by simp)

/-- Claim C4: with an empty array collection, every entry point (unweighted or
weighted, pointer or allocating, either skip_nan value) fills all n output
positions with NaN. -/
theorem claim4_empty_collection_nan :
    ∀ (n : ℕ) (w : List ℚ) (out0 : List EF) (skip_nan : Bool),
      compute n [] out0 skip_nan = List.replicate n EF.nan ∧
      compute_alloc n [] skip_nan = List.replicate n EF.nan ∧
      compute_weighted n [] w out0 skip_nan = List.replicate n EF.nan ∧
      compute_weighted_alloc n [] w skip_nan = List.replicate n EF.nan := by
  intro n w out0 sk
  exact ⟨rfl, rfl, rfl, rfl⟩

/-- Claim C5: on a single-array collection (either skip_nan value), unweighted
compute returns that array unchanged (a direct copy); compute_weighted returns
all-NaN when the array's weight is exactly zero and the unchanged copy otherwise,
regardless of the weight's magnitude. -/
theorem claim5_single_array :
    ∀ (n : ℕ) (a : List EF) (q : ℚ) (out0 : List EF) (skip_nan : Bool),
      a.length = n →
      compute n [a] out0 skip_nan = a ∧
      compute_weighted n [a] [q] out0 skip_nan =
        (if q = 0 then List.replicate n EF.nan else a) := by
  intro n a q out0 sk ha
  have hcopy : compute n [a] out0 sk = a := by
    show a.take n = a
    exact List.take_of_length_le ha.le
  refine ⟨hcopy, ?_⟩
  have hall : ((([q] : List ℚ).take ([a] : List (List EF)).length).all
      (fun x => x == ([q] : List ℚ).headD 0)) = true := by simp
  unfold compute_weighted
  rw [if_pos ⟨by simp, hall⟩]
  simp only [List.headD_cons]
  split_ifs with hq
  · rfl
  · exact hcopy

/-- Witness for C5 at n = 1, array [6], weight 3: the unweighted call copies the
array and the weighted call (nonzero weight) returns the same copy. -/
theorem claim5_single_array_witness :
    compute 1 [[EF.val 6]] [EF.val 0] true = [EF.val 6] ∧
    compute_weighted 1 [[EF.val 6]] [3] [EF.val 0] true =
      (if (3 : ℚ) = 0 then List.replicate 1 EF.nan else [EF.val 6]) :=
  claim5_single_array 1 [EF.val 6] 3 [EF.val 0] true (by simp)

/-- Claim C8: every entry point is deterministic — the output is a function of n,
the array contents, the weights and the skip_nan flag only; in particular it does
not depend on the prior contents of the caller-supplied output buffer, and the
allocating overloads agree with the pointer overloads. -/
theorem claim8_deterministic :
    ∀ (n : ℕ) (inp : List (List EF)) (w : List ℚ) (out0 out1 : List EF)
      (skip_nan : Bool),
      compute n inp out0 skip_nan = compute n inp out1 skip_nan ∧
      compute_alloc n inp skip_nan = compute n inp out0 skip_nan ∧
      compute_weighted n inp w out0 skip_nan = compute_weighted n inp w out1 skip_nan ∧
      compute_weighted_alloc n inp w skip_nan = compute_weighted n inp w out0 skip_nan := by
  intro n inp w out0 out1 sk
  exact ⟨rfl, rfl, rfl, rfl⟩

/-- Claim C9: with skip_nan = true and at least two arrays, an output position whose
accumulated-mass counter ends at zero (every contributor NaN, or every non-NaN
contributor of zero weight) is exactly NaN — never plus or minus infinity — because
nothing was added to its running sum, so the final division is exactly 0/0.
Weights are required non-negative, per the documented precondition. -/
theorem claim9_zero_mass_gives_nan :
    ∀ (b : Bool) (n : ℕ) (inp : List (List EF)) (w : List ℚ) (out0 : List EF) (i : ℕ),
      2 ≤ inp.length → (∀ a ∈ inp, n ≤ a.length) → i < n →
      (∀ x ∈ effWeights b inp w, 0 ≤ x) →
      ((accumAll b true n inp w)[i]!).2 = 0 →
      (internal.compute b n inp w out0 true)[i]! = EF.nan := by
  intro b n inp w out0 i h2 hlen hi hwpos hzero
  rw [internal_compute_multi_skip h2 hlen hi]
  have hzero2 : ((columnContribs b true i (inp.zip (effWeights b inp w))).map
      Prod.snd).sum = 0 := by
    have h := hzero
    rw [accumAll_getElem hi hlen] at h
    simpa using h
  have hpos : ∀ m ∈ (columnContribs b true i (inp.zip (effWeights b inp w))).map
      Prod.snd, 0 < m := by
    intro m hm
    rcases List.mem_map.mp hm with ⟨p0, hp0, hp0m⟩
    rcases List.mem_filterMap.mp hp0 with ⟨p, hpz, hfp⟩
    have hc1 : ¬(b = true ∧ p.2 = 0) := by
      intro hc
      rw [if_pos hc] at hfp
      exact Option.noConfusion hfp
    rw [if_neg hc1] at hfp
    have hc2 : ¬(true = true ∧ scaleVal b p.2 (p.1[i]!) = EF.nan) := by
      intro hc
      rw [if_pos hc] at hfp
      exact Option.noConfusion hfp
    rw [if_neg hc2] at hfp
    have hp0eq : p0 = (scaleVal b p.2 (p.1[i]!), massOf b p.2) :=
      (Option.some.inj hfp).symm
    rw [← hp0m, hp0eq]
    show 0 < massOf b p.2
    cases b with
    | false => norm_num [massOf]
    | true =>
        have hne0 : p.2 ≠ 0 := fun h => hc1 ⟨rfl, h⟩
        have hmem : p.2 ∈ effWeights true inp w := (List.of_mem_zip hpz).2
        have := hwpos p.2 hmem
        show 0 < (if true = true then p.2 else 1)
        rw [if_pos rfl]
        exact lt_of_le_of_ne this (Ne.symm hne0)
  have hempty : (columnContribs b true i (inp.zip (effWeights b inp w))).map
      Prod.snd = [] := by
    by_contra hne
    exact absurd hzero2 (ne_of_gt (List.sum_pos _ hpos hne))
  have hcc : columnContribs b true i (inp.zip (effWeights b inp w)) = [] :=
    List.map_eq_nil_iff.mp hempty
  rw [hcc]
  simp [EF.divQ]

/-- Witness for C9: two arrays that are NaN at position 0 leave the counter at 0 and
the output is exactly NaN. -/
theorem claim9_zero_mass_gives_nan_witness :
    (internal.compute false 1 [[EF.nan], [EF.nan]] [] [EF.val 0] true)[0]! = EF.nan :=
  claim9_zero_mass_gives_nan false 1 [[EF.nan], [EF.nan]] [] [EF.val 0] 0
    (by norm_num) (by simp) (by norm_num)
    (by
      intro x hx
      have hx2 : x ∈ List.replicate ([[EF.nan], [EF.nan]] : List (List EF)).length
          (1 : ℚ) := hx
      rw [List.eq_of_mem_replicate hx2]
      norm_num)
    rfl

theorem foldl_accumArray_congr {n : ℕ} {skip : Bool} {l1 l2 : List (List EF × ℚ)}
    (h : List.Forall₂ (fun p q : List EF × ℚ => p.2 = q.2 ∧ (p.2 ≠ 0 → p = q)) l1 l2) :
    ∀ st : List (EF × ℚ),
      l1.foldl (fun st p => accumArray n true skip p.1 p.2 st) st =
      l2.foldl (fun st p => accumArray n true skip p.1 p.2 st) st := by
  induction h with
  | nil => intro st; rfl
  | @cons p q t1 t2 hpq hrest ih =>
      intro st
      rw [List.foldl_cons, List.foldl_cons]
      have hstep : accumArray n true skip p.1 p.2 st = accumArray n true skip q.1 q.2 st := by
        by_cases h0 : p.2 = 0
        · unfold accumArray
          rw [if_pos ⟨rfl, h0⟩, if_pos ⟨rfl, hpq.1 ▸ h0⟩]
        · rw [hpq.2 h0]
      rw [hstep]
      exact ih _

/-- Claim C10: two compute_weighted calls identical except for the element values of
arrays whose weight is exactly zero produce identical outputs, in either skip_nan
mode: zero-weight arrays are skipped during accumulation and add nothing to the
global weight sum, so their contents never influence the output. -/
theorem claim10_zero_weight_contents_irrelevant :
    ∀ (n : ℕ) (inp1 inp2 : List (List EF)) (w : List ℚ) (out0 : List EF)
      (skip_nan : Bool),
      inp1.length = inp2.length → w.length = inp1.length →
      (∀ j, j < inp1.length → w[j]! ≠ 0 → inp1[j]! = inp2[j]!) →
      compute_weighted n inp1 w out0 skip_nan = compute_weighted n inp2 w out0 skip_nan := by
  intro n inp1 inp2 w out0 sk hlen hw hcontents
  by_cases hne : inp1 = []
  · have h2 : inp2 = [] := by
      rw [← List.length_eq_zero, ← hlen, hne]
      rfl
    rw [hne, h2]
  · have hne2 : inp2 ≠ [] := by
      intro h
      apply hne
      rw [← List.length_eq_zero, hlen, h]
      rfl
    have htake : w.take inp1.length = w := by
      rw [← hw, List.take_length]
    unfold compute_weighted
    by_cases hsame : ((w.take inp1.length).all (fun x => x == w.headD 0)) = true
    · have hcond2 : inp2 ≠ [] ∧ ((w.take inp2.length).all (fun x => x == w.headD 0)) = true :=
        ⟨hne2, by rw [← hlen]; exact hsame⟩
      rw [if_pos ⟨hne, hsame⟩, if_pos hcond2]
      by_cases hz : w.headD 0 = 0
      · rw [if_pos hz, if_pos hz]
      · rw [if_neg hz, if_neg hz]
        have heq : inp1 = inp2 := by
          apply List.ext_getElem hlen
          intro j hj1 hj2
          have hjw : j < w.length := by omega
          have hwj : w[j]! = w.headD 0 := by
            have hmemj : w[j] ∈ w := List.getElem_mem hjw
            have := List.all_eq_true.mp (htake ▸ hsame) (w[j]) hmemj
            rw [getBang_eq_getElem hjw]
            exact beq_iff_eq.mp this
          have hne0 : w[j]! ≠ 0 := by
            rw [hwj]
            exact hz
          have := hcontents j hj1 hne0
          rw [getBang_eq_getElem hj1, getBang_eq_getElem hj2] at this
          exact this
        rw [heq]
    · rw [if_neg (fun hc => hsame hc.2), if_neg (fun hc => hsame (by rw [← hlen] at hc; exact hc.2))]
      -- general path: the engine ignores zero-weight array contents
      have hlen2 : 2 ≤ inp1.length := by
        rcases inp1 with _ | ⟨a, _ | ⟨a2, t⟩⟩
        · exact absurd rfl hne
        · exfalso
          apply hsame
          rcases w with _ | ⟨w0, wt⟩
          · simp at hw
          · have h1 : wt.length + 1 = 1 := hw
            have hwt : wt = [] := List.length_eq_zero.mp (by omega)
            subst hwt
            simp
        · simp
      have hzip : List.Forall₂ (fun p q : List EF × ℚ => p.2 = q.2 ∧ (p.2 ≠ 0 → p = q))
          (inp1.zip w) (inp2.zip w) := by
        rw [List.forall₂_iff_get]
        have hz1 : (inp1.zip w).length = inp1.length := by
          rw [List.length_zip, hw, min_self]
        have hz2 : (inp2.zip w).length = inp2.length := by
          rw [List.length_zip, hw, hlen, min_self]
        constructor
        · rw [hz1, hz2, hlen]
        · intro j hj1 hj2
          have hj1i : j < inp1.length := by rw [← hz1]; exact hj1
          have hj2i : j < inp2.length := by rw [← hz2]; exact hj2
          have hjw : j < w.length := by omega
          have hg1 : (inp1.zip w).get ⟨j, hj1⟩ = (inp1[j], w[j]) := List.getElem_zip
          have hg2 : (inp2.zip w).get ⟨j, hj2⟩ = (inp2[j], w[j]) := List.getElem_zip
          rw [hg1, hg2]
          refine ⟨rfl, ?_⟩
          intro hne0
          have := hcontents j hj1i (by rw [getBang_eq_getElem hjw]; exact hne0)
          rw [getBang_eq_getElem hj1i, getBang_eq_getElem hj2i] at this
          rw [this]
      have haccum : ∀ skx : Bool, accumAll true skx n inp1 w = accumAll true skx n inp2 w := by
        intro skx
        unfold accumAll
        have he1 : effWeights true inp1 w = w := rfl
        have he2 : effWeights true inp2 w = w := rfl
        rw [he1, he2]
        exact foldl_accumArray_congr hzip _
      rcases inp1 with _ | ⟨a, _ | ⟨a2, t⟩⟩
      · exact absurd rfl hne
      · simp at hlen2
      · rcases inp2 with _ | ⟨c, _ | ⟨c2, u⟩⟩
        · exact absurd rfl hne2
        · exfalso
          rw [hlen] at hlen2
          simp at hlen2
        · have hlsum : (w.take (a :: a2 :: t).length).sum = (w.take (c :: c2 :: u).length).sum := by
            rw [hlen]
          cases sk
          · show ((accumAll true false n (a :: a2 :: t) w).map (fun p => EF.mul p.1
                (EF.divQ (EF.val 1)
                  (if true = true then (w.take (a :: a2 :: t).length).sum
                   else (((a :: a2 :: t).length : ℕ) : ℚ))))) =
              ((accumAll true false n (c :: c2 :: u) w).map (fun p => EF.mul p.1
                (EF.divQ (EF.val 1)
                  (if true = true then (w.take (c :: c2 :: u).length).sum
                   else (((c :: c2 :: u).length : ℕ) : ℚ)))))
            rw [haccum false, if_pos rfl, if_pos rfl, hlsum]
          · show ((accumAll true true n (a :: a2 :: t) w).map (fun p => EF.divQ p.1 p.2)) =
              ((accumAll true true n (c :: c2 :: u) w).map (fun p => EF.divQ p.1 p.2))
            rw [haccum true]

/-- Witness for C10: changing a zero-weight array's contents (NaN versus 7) leaves
the weighted output unchanged. -/
theorem claim10_zero_weight_contents_irrelevant_witness :
    compute_weighted 1 [[EF.nan], [EF.val 1]] [0, 1] [EF.val 0] true =
      compute_weighted 1 [[EF.val 7], [EF.val 1]] [0, 1] [EF.val 0] true :=
  claim10_zero_weight_contents_irrelevant 1 [[EF.nan], [EF.val 1]] [[EF.val 7], [EF.val 1]]
    [0, 1] [EF.val 0] true (by simp) (by simp)
    (by
      intro j hj hnz
      have hj2 : j < 2 := by simpa using hj
      interval_cases j
      · exact absurd rfl hnz
      · rfl)

end average_vectors
end scran
